import Mathlib

/-!
Shallow embedding of the identifier-interning and arena-allocation core of
the repository (src/code/compiler/context.cpp and src/code/resolve/inst.h).

Byte strings are modelled as lists of byte values (natural numbers below
256); the pair (chars, count) of the C++ API is modelled as the list of the
count bytes starting at chars.  The U32 casts on lengths and segment counts
are value-preserving in the model, matching the implicit assumption of the
source that names are shorter than 2 to the 32 bytes.
-/

namespace Xc

/-- Modelled from the spec: the Hasher type is declared in context.h, which
is not among the sources; the spec describes it as a single FNV/rolling-style
32-bit hash accumulator.  hashByte is one Hasher.addByte step (FNV-1a:
xor the byte in, multiply by the FNV prime, wrap to 32 bits). -/
def hashByte (h b : Nat) : Nat := ((h ^^^ b) * 16777619) % 2 ^ 32

/-- Modelled from the spec: the initial accumulator value of a fresh Hasher
(the 32-bit FNV offset basis). -/
def hashInit : Nat := 2166136261

/-- Modelled from the spec: Hasher.addBytes over a whole byte list followed
by Hasher.get, that is, the fold of hashByte from the fresh accumulator. -/
def hashBytes (bytes : List Nat) : Nat := bytes.foldl hashByte hashInit

/-- Interned identifiers are 32-bit hash values (Id is U32 in the source). -/
abbrev Id := Nat

/-- Operator associativity (enum Assoc from the headers). -/
inductive Assoc where
  | Left
  | Right
  deriving DecidableEq

/-- Operator metadata stored in the operator table: precedence and
associativity (struct OpProperties). -/
structure OpProperties where
  prec : Nat
  assoc : Assoc
  deriving DecidableEq

/-- Where the text field of an Identifier points.  addUnqualifiedName stores
the caller pointer chars unchanged (callerPtr, aliasing the caller buffer),
while addQualifiedName allocates from stringArena and memcpy-copies the bytes
(arenaCopy, arena-owned storage).  Both variants carry the byte content the
pointer refers to. -/
inductive TextRef where
  | callerPtr (bytes : List Nat)
  | arenaCopy (bytes : List Nat)
  deriving DecidableEq

/-- The byte content reachable through the text pointer. -/
def TextRef.bytes : TextRef → List Nat
  | TextRef.callerPtr b => b
  | TextRef.arenaCopy b => b

/-- The Identifier record built by the interning entry points.  segments and
segmentHashes are none when the source stores a null pointer.  Fields the
source leaves unassigned on a given path are given the defaults none and 0;
no operation reads a field its construction path did not assign. -/
structure Identifier where
  text : TextRef
  textLength : Nat
  segmentCount : Nat
  segments : Option (List Nat)
  segmentHashes : Option (List Nat)
  segmentHash : Nat
  deriving DecidableEq

/-- Modelled from the spec: the map types backing Context.ops and
Context.identifiers are declared in headers outside the sources; the spec
gives them last/associative insertion semantics.  A map is modelled as an
association list where insertion prepends a binding and lookup returns the
most recent binding for a key. -/
structure Context where
  ops : List (Id × OpProperties)
  identifiers : List (Id × Identifier)
  deriving DecidableEq

/-- Context.addOp: store the given precedence and associativity for op. -/
def Context.addOp (ctx : Context) (op : Id) (prec : Nat) (assoc : Assoc) : Context :=
  { ctx with ops := (op, ⟨prec, assoc⟩) :: ctx.ops }

/-- Context.findOp: return the stored properties for op, or the default
precedence 9, left-associative, when op was never registered. -/
def Context.findOp (ctx : Context) (op : Id) : OpProperties :=
  match ctx.ops.lookup op with
  | some res => res
  | none => ⟨9, Assoc.Left⟩

/-- Context.addIdentifier: compute the interning key (the precomputed segment
hash for a single-segment name, otherwise a fresh hash over the textLength
bytes of the name text), insert the Identifier under that key, and return
the key. -/
def Context.addIdentifier (ctx : Context) (ident : Identifier) : Id × Context :=
  let i := if ident.segmentCount = 1 then ident.segmentHash
           else hashBytes (ident.text.bytes.take ident.textLength)
  (i, { ctx with identifiers := (i, ident) :: ctx.identifiers })

/-- Context.find: the Identifier mapped to a previously interned Id; none
when the Id was never interned (the source indexes the map directly and is
undefined there). -/
def Context.find (ctx : Context) (i : Id) : Option Identifier :=
  ctx.identifiers.lookup i

/-- Context.addUnqualifiedName: hash the full byte range once, build a
single-segment Identifier whose text field is the caller pointer, and
intern it. -/
def Context.addUnqualifiedName (ctx : Context) (chars : List Nat) : Id × Context :=
  Context.addIdentifier ctx
    { text := TextRef.callerPtr chars
      textLength := chars.length
      segmentCount := 1
      segments := none
      segmentHashes := none
      segmentHash := hashBytes chars }

/-- The inner while loop of the multi-segment branch of addQualifiedName:
starting from the byte at p (the remaining suffix of the name), feed bytes
into the accumulator while the end has not been reached and the byte is not
a dot (byte 46).  Returns the accumulator and the remaining suffix, which
still begins with the dot when one stopped the loop. -/
def hashWhile : List Nat → Nat → Nat × List Nat
  | [], h => (h, [])
  | c :: rest, h =>
    if c = 46 then (h, c :: rest)
    else hashWhile rest (hashByte h c)

/-- The for loop of the multi-segment branch of addQualifiedName: one
(offset, hash) pair per segment index, where the offset is the current
position p expressed as count minus the length of the remaining suffix. -/
def segLoop (count : Nat) : Nat → List Nat → List (Nat × Nat)
  | 0, _ => []
  | n + 1, rest =>
    let r := hashWhile rest hashInit
    (count - rest.length, r.1) :: segLoop count n r.2

/-- Context.addQualifiedName (explicit segment count): for segmentCount at
most 1, copy the text into the arena and intern a single-segment Identifier
hashed over the full byte range; otherwise allocate one arena block, copy
the text, run the segment loop to fill the offset and hash arrays, and
intern the multi-segment Identifier. -/
def Context.addQualifiedName (ctx : Context) (chars : List Nat) (segmentCount : Nat) :
    Id × Context :=
  if segmentCount ≤ 1 then
    Context.addIdentifier ctx
      { text := TextRef.arenaCopy chars
        textLength := chars.length
        segmentCount := 1
        segments := none
        segmentHashes := none
        segmentHash := hashBytes chars }
  else
    Context.addIdentifier ctx
      { text := TextRef.arenaCopy chars
        textLength := chars.length
        segmentCount := segmentCount
        segments := some ((segLoop chars.length segmentCount chars).map Prod.fst)
        segmentHashes := some ((segLoop chars.length segmentCount chars).map Prod.snd)
        segmentHash := 0 }

/-- Context.addQualifiedName (two-argument overload): the segment count is
inferred by starting at 1 and incrementing for every dot byte in the input,
then the explicit-count overload is called. -/
def Context.addQualifiedNameInfer (ctx : Context) (chars : List Nat) : Id × Context :=
  Context.addQualifiedName ctx chars
    (chars.foldl (fun acc c => if c = 46 then acc + 1 else acc) 1)

/-- The discriminant Value.Kind from inst.h.  FirstConst and LastConst are
aliases of ConstInt and ConstString in the source and therefore not separate
constructors; FirstInst is a distinct enumerator of its own. -/
inductive Kind where
  | Arg
  | ConstInt
  | ConstFloat
  | ConstString
  | FirstInst
  | InstTrunc
  | InstFTrunc
  | InstZExt
  | InstSExt
  | InstFExt
  | InstAdd
  | InstSub
  | InstMul
  | InstDiv
  | InstIDiv
  | InstRem
  | InstIRem
  | InstFAdd
  | InstFSub
  | InstFMul
  | InstFDiv
  | InstICmp
  | InstFCmp
  | InstShl
  | InstShr
  | InstSar
  | InstAnd
  | InstOr
  | InstXor
  | InstRecord
  | InstTup
  | InstFun
  | InstCall
  | InstCallGen
  | InstCallDyn
  | InstCallDynGen
  | InstCallForeign
  | InstJe
  | InstJmp
  | InstRet
  | InstPhi
  deriving DecidableEq, Fintype

/-- isTerminating from inst.h: a kind is terminating exactly when it is
InstRet, InstJe or InstJmp. -/
def isTerminating (kind : Kind) : Bool :=
  kind = Kind.InstRet || kind = Kind.InstJe || kind = Kind.InstJmp

/-- The state of an Arena: the bump pointer, the end of the current chunk,
the next address a fresh chunk will be placed at, and the start addresses of
all chunks obtained so far (most recent first).  Addresses are natural
numbers; malloc is modelled as returning consecutive fresh regions of
kChunkSize bytes, a legal behaviour of the allocator. -/
structure ArenaState where
  buffer : Nat
  maxP : Nat
  nextFresh : Nat
  chunks : List Nat
  deriving DecidableEq

/-- Modelled from the spec: the Arena constructor is declared in context.h,
which is not among the sources; the spec says the arena starts with no chunk,
so the first allocation always obtains one.  Modelled as bump pointer and
chunk end both 0. -/
def arenaInit : ArenaState := ⟨0, 0, 0, []⟩

/-- Arena.alloc with chunk size k (kChunkSize is a constant from the missing
header; the spec says to treat it as a tunable constant, so it is a
parameter here): when the current chunk cannot hold size more bytes, obtain
a fresh chunk of k bytes and point the bump pointer at it; then return the
bump pointer and advance it by size. -/
def Arena.alloc (k : Nat) (s : ArenaState) (size : Nat) : Nat × ArenaState :=
  if s.maxP < s.buffer + size then
    let b := s.nextFresh
    (b, ⟨b + size, b + k, b + k, b :: s.chunks⟩)
  else
    (s.buffer, { s with buffer := s.buffer + size })

/-- Run a sequence of allocations, collecting the returned byte ranges as
(pointer, size) pairs together with the final arena state. -/
def Arena.allocAll (k : Nat) (s : ArenaState) : List Nat → List (Nat × Nat) × ArenaState
  | [] => ([], s)
  | size :: rest =>
    let r := Arena.alloc k s size
    let rs := Arena.allocAll k r.2 rest
    ((r.1, size) :: rs.1, rs.2)

/-- Membership of an address in a (pointer, size) byte range. -/
def inRange (r : Nat × Nat) (x : Nat) : Prop := r.1 ≤ x ∧ x < r.1 + r.2

/-- Two byte ranges are disjoint when no address lies in both. -/
def RangeDisjoint (a b : Nat × Nat) : Prop := ∀ x, inRange a x → ¬inRange b x

/-- The number of bytes handed out from the chunk starting at c: the sum of
the sizes of the returned ranges lying inside [c, c + k). -/
def chunkBytes (k c : Nat) (rs : List (Nat × Nat)) : Nat :=
  ((rs.filter fun r => decide (c ≤ r.1 ∧ r.1 + r.2 ≤ c + k)).map Prod.snd).sum

/-- The invariant maintained by Arena.alloc for in-bound requests: the bump
pointer is inside the current chunk, fresh addresses lie past it, and the
most recent chunk, when one exists, contains the bump pointer and ends at
maxP. -/
def ArenaInv (k : Nat) (s : ArenaState) : Prop :=
  s.buffer ≤ s.maxP ∧ s.maxP ≤ s.nextFresh ∧
    ((s.chunks = [] ∧ s.buffer = 0 ∧ s.maxP = 0) ∨
      (∃ c, s.chunks.head? = some c ∧ c ≤ s.buffer ∧ s.maxP = c + k))

/-- The byte string a.bc.def as a byte list. -/
def abcdef : List Nat := [97, 46, 98, 99, 46, 100, 101, 102]

/-- Counting dots with the source loop (start at 1, add 1 per dot byte)
yields the dot count of the list plus one. -/
theorem countDots_foldl (l : List Nat) :
    ∀ n : Nat, l.foldl (fun acc c => if c = 46 then acc + 1 else acc) n
      = l.count 46 + n := by
  induction l with
  | nil => intro n; simp
  | cons a t ih =>
    intro n
    by_cases h : a = 46
    · subst h
      simp only [List.foldl_cons, if_pos rfl, ih, List.count_cons]
      simp
      omega
    · simp only [List.foldl_cons, if_neg h, ih, List.count_cons]
      have hba : ¬((46 : Nat) == a) = true := by simpa using fun hh => h hh.symm
      simp [hba]
      exact h

/-- C7: isTerminating is a pure classification returning true for exactly
the kinds InstRet, InstJe and InstJmp, and false for every other kind. -/
theorem isTerminating_iff (k : Kind) :
    isTerminating k = true ↔ (k = Kind.InstRet ∨ k = Kind.InstJe ∨ k = Kind.InstJmp) := by
  cases k <;> simp [isTerminating]

/-- C6: findOp on an Id never registered through addOp returns precedence 9,
left-associative; and directly after addOp with precedence p and
associativity a, findOp returns exactly those properties. -/
theorem findOp_default_and_addOp (ctx : Context) (op op2 : Id) (p : Nat) (a : Assoc)
    (h : ctx.ops.lookup op = none) :
    ctx.findOp op = ⟨9, Assoc.Left⟩ ∧
      (ctx.addOp op2 p a).findOp op2 = ⟨p, a⟩ := by
  constructor
  · simp [Context.findOp, h]
  · simp [Context.findOp, Context.addOp, List.lookup]

/-- Witness for findOp_default_and_addOp at the empty context, operator
Id 5, precedence 3, right-associative. -/
theorem findOp_default_and_addOp_witness :
    (Context.mk [] []).ops.lookup 5 = none ∧
      ((Context.mk [] []).findOp 5 = ⟨9, Assoc.Left⟩ ∧
        ((Context.mk [] []).addOp 5 3 Assoc.Right).findOp 5 = ⟨3, Assoc.Right⟩) :=
  ⟨rfl, findOp_default_and_addOp (Context.mk [] []) 5 5 3 Assoc.Right rfl⟩

/-- C3: whatever the current state of the Context and whichever entry point
is used (addUnqualifiedName, addQualifiedName with an explicit segment
count, or the overload inferring the count), interning a byte sequence
returns the hash of exactly that byte content, so identical byte content
always yields equal Ids. -/
theorem intern_id_content_only (ctx1 ctx2 ctx3 : Context) (chars : List Nat) (sc : Nat) :
    (ctx1.addUnqualifiedName chars).1 = hashBytes chars ∧
    (ctx2.addQualifiedName chars sc).1 = hashBytes chars ∧
    (ctx3.addQualifiedNameInfer chars).1 = hashBytes chars := by
  have hq : ∀ (c : Context) (n : Nat), (c.addQualifiedName chars n).1 = hashBytes chars := by
    intro c n
    by_cases h : n ≤ 1
    · simp [Context.addQualifiedName, h, Context.addIdentifier]
    · have hne : n ≠ 1 := by omega
      simp [Context.addQualifiedName, h, Context.addIdentifier, hne, TextRef.bytes]
  exact ⟨by simp [Context.addUnqualifiedName, Context.addIdentifier],
    hq ctx2 sc, hq ctx3 _⟩

/-- C4: the interning key computed by addIdentifier is the precomputed
segment hash when segmentCount is 1 and otherwise a fresh hash over the
whole name text; in particular the key never depends on the per-segment
offset and hash arrays or on the state of the Context. -/
theorem addIdentifier_key (ctx ctx2 : Context) (ident : Identifier) (ss hs : List Nat) :
    (ctx.addIdentifier ident).1
        = (if ident.segmentCount = 1 then ident.segmentHash
           else hashBytes (ident.text.bytes.take ident.textLength)) ∧
      (ctx2.addIdentifier
          { ident with segments := some ss, segmentHashes := some hs }).1
        = (ctx.addIdentifier ident).1 := by
  constructor
  · simp [Context.addIdentifier]
  · simp [Context.addIdentifier]

/-- C5: addIdentifier never deduplicates: every call grows the identifier
map by one binding and returns the computed key, and a subsequent find on
that key returns the Identifier just inserted (the most recent binding),
even when the map already held a binding for the same key. -/
theorem addIdentifier_no_dedup (ctx : Context) (ident : Identifier) :
    ((ctx.addIdentifier ident).2).identifiers.length = ctx.identifiers.length + 1 ∧
      ((ctx.addIdentifier ident).2).find (ctx.addIdentifier ident).1 = some ident := by
  constructor
  · simp [Context.addIdentifier]
  · simp [Context.addIdentifier, Context.find, List.lookup]

/-- C8: the two-argument overload of addQualifiedName behaves exactly like
the explicit-count overload called with one more than the number of dot
bytes in the input. -/
theorem addQualifiedName_infer_counts_dots (ctx : Context) (chars : List Nat) :
    ctx.addQualifiedNameInfer chars
      = ctx.addQualifiedName chars (chars.count 46 + 1) := by
  unfold Context.addQualifiedNameInfer
  rw [countDots_foldl]

/-- C9: addUnqualifiedName stores the caller text pointer directly in the
interned Identifier, while addQualifiedName, whatever the segment count,
stores an arena-owned copy of the name bytes. -/
theorem text_ownership (ctx1 ctx2 : Context) (chars : List Nat) (sc : Nat) :
    ((ctx1.addUnqualifiedName chars).2.find
        (ctx1.addUnqualifiedName chars).1).map Identifier.text
      = some (TextRef.callerPtr chars) ∧
    ((ctx2.addQualifiedName chars sc).2.find
        (ctx2.addQualifiedName chars sc).1).map Identifier.text
      = some (TextRef.arenaCopy chars) := by
  constructor
  · simp [Context.addUnqualifiedName, Context.addIdentifier, Context.find, List.lookup]
  · by_cases h : sc ≤ 1
    · simp [Context.addQualifiedName, h, Context.addIdentifier, Context.find, List.lookup]
    · simp [Context.addQualifiedName, h, Context.addIdentifier, Context.find, List.lookup]

/-- C10: calling addQualifiedName with explicit segment count 0 is
literally the same operation as calling it with segment count 1: both take
the single-segment path, so the stored Identifier has segmentCount 1, null
segment arrays, an arena copy of the text, and the returned Id is the hash
of the full byte range. -/
theorem addQualifiedName_zero_eq_one (ctx : Context) (chars : List Nat) :
    ctx.addQualifiedName chars 0 = ctx.addQualifiedName chars 1 ∧
      (ctx.addQualifiedName chars 0).1 = hashBytes chars ∧
      (ctx.addQualifiedName chars 0).2.find (hashBytes chars)
        = some { text := TextRef.arenaCopy chars
                 textLength := chars.length
                 segmentCount := 1
                 segments := none
                 segmentHashes := none
                 segmentHash := hashBytes chars } := by
  refine ⟨rfl, ?_, ?_⟩
  · simp [Context.addQualifiedName, Context.addIdentifier]
  · simp [Context.addQualifiedName, Context.addIdentifier, Context.find, List.lookup]

/-- C1: evaluating the code on the qualified name a.bc.def shows the stored
segment data diverging from the specified split: the segment count is 3 as
specified, but the stored offsets are 0, 1, 1 rather than 0, 2, 5, and the
second and third segment hashes are the hash of zero bytes (the fresh
accumulator value) rather than the hashes of bc and def, because the
segment loop never advances past a dot.  The offsets are independent of the
hash function model. -/
theorem qualified_name_segment_loop_stuck :
    (((Context.mk [] []).addQualifiedNameInfer abcdef).2.find
        (((Context.mk [] []).addQualifiedNameInfer abcdef).1)).map
        (fun ident => (ident.segmentCount, ident.segments, ident.segmentHashes))
      = some (3, some [0, 1, 1], some [hashBytes [97], hashInit, hashInit]) ∧
      ([0, 1, 1] : List Nat) ≠ [0, 2, 5] ∧
      hashInit ≠ hashBytes [98, 99] ∧
      hashInit ≠ hashBytes [100, 101, 102] := by
  refine ⟨by decide, by decide, by decide, by decide⟩

/-- One step of Arena.alloc preserves the arena invariant when the request
fits in a chunk; the returned pointer lies at or past the old bump pointer,
the new bump pointer sits right after the returned range, chunks are only
ever added, and a nonempty returned range lies inside the chunk that is
current after the step. -/
theorem alloc_step (k : Nat) (s : ArenaState) (size : Nat)
    (hinv : ArenaInv k s) (hsz : size ≤ k) :
    ArenaInv k (Arena.alloc k s size).2 ∧
      s.buffer ≤ (Arena.alloc k s size).1 ∧
      (Arena.alloc k s size).1 + size = (Arena.alloc k s size).2.buffer ∧
      (∀ c ∈ s.chunks, c ∈ (Arena.alloc k s size).2.chunks) ∧
      (size ≠ 0 → ∃ c ∈ (Arena.alloc k s size).2.chunks,
        c ≤ (Arena.alloc k s size).1 ∧ (Arena.alloc k s size).1 + size ≤ c + k) := by
  obtain ⟨h1, h2, h3⟩ := hinv
  by_cases hc : s.maxP < s.buffer + size
  · have he : Arena.alloc k s size
        = (s.nextFresh,
            ⟨s.nextFresh + size, s.nextFresh + k, s.nextFresh + k, s.nextFresh :: s.chunks⟩) := by
      simp only [Arena.alloc, if_pos hc]
    rw [he]
    dsimp only [ArenaInv]
    refine ⟨⟨by omega, by omega, Or.inr ⟨s.nextFresh, rfl, by omega, rfl⟩⟩,
      by omega, rfl, ?_, ?_⟩
    · intro c hcm
      exact List.mem_cons_of_mem _ hcm
    · intro _
      exact ⟨s.nextFresh, List.mem_cons_self _ _, Nat.le_refl _, by omega⟩
  · have he : Arena.alloc k s size
        = (s.buffer, { s with buffer := s.buffer + size }) := by
      simp only [Arena.alloc, if_neg hc]
    rw [he]
    dsimp only [ArenaInv]
    refine ⟨⟨by omega, by omega, ?_⟩, Nat.le_refl _, rfl, fun c hcm => hcm, ?_⟩
    · rcases h3 with ⟨hnil, hb, hm⟩ | ⟨c, hh, hcb, hm⟩
      · exact Or.inl ⟨hnil, by omega, hm⟩
      · exact Or.inr ⟨c, hh, by omega, hm⟩
    · intro hsz0
      rcases h3 with ⟨hnil, hb, hm⟩ | ⟨c, hh, hcb, hm⟩
      · omega
      · exact ⟨c, List.mem_of_mem_head? hh, by omega, by omega⟩

/-- Running a list of in-bound allocation requests from an invariant state
preserves the invariant, never moves the bump pointer backwards, returns
ranges lying between the old and new bump pointers and ordered one after
another, only adds chunks, and places every nonempty returned range inside
one of the final chunks. -/
theorem allocAll_spec (k : Nat) (sizes : List Nat) :
    ∀ s : ArenaState, ArenaInv k s → (∀ sz ∈ sizes, sz ≤ k) →
      ArenaInv k (Arena.allocAll k s sizes).2 ∧
      s.buffer ≤ (Arena.allocAll k s sizes).2.buffer ∧
      (∀ r ∈ (Arena.allocAll k s sizes).1,
        s.buffer ≤ r.1 ∧ r.1 + r.2 ≤ (Arena.allocAll k s sizes).2.buffer) ∧
      List.Pairwise (fun a b : Nat × Nat => a.1 + a.2 ≤ b.1) (Arena.allocAll k s sizes).1 ∧
      (∀ c ∈ s.chunks, c ∈ (Arena.allocAll k s sizes).2.chunks) ∧
      (∀ r ∈ (Arena.allocAll k s sizes).1, r.2 ≠ 0 →
        ∃ c ∈ (Arena.allocAll k s sizes).2.chunks, c ≤ r.1 ∧ r.1 + r.2 ≤ c + k) := by
  induction sizes with
  | nil =>
    intro s hinv _
    exact ⟨hinv, Nat.le_refl _, by simp [Arena.allocAll], by simp [Arena.allocAll],
      by simp [Arena.allocAll], by simp [Arena.allocAll]⟩
  | cons size rest ih =>
    intro s hinv hsz
    have hs0 : size ≤ k := hsz size (List.mem_cons_self _ _)
    have hstep := alloc_step k s size hinv hs0
    obtain ⟨hinv1, hple, hpb, hchmono1, hcover1⟩ := hstep
    have hrest := ih (Arena.alloc k s size).2 hinv1
      (fun sz hm => hsz sz (List.mem_cons_of_mem _ hm))
    obtain ⟨hinv2, hmono2, hranges2, hpair2, hchmono2, hcover2⟩ := hrest
    have hshow : Arena.allocAll k s (size :: rest)
        = (((Arena.alloc k s size).1, size) :: (Arena.allocAll k (Arena.alloc k s size).2 rest).1,
           (Arena.allocAll k (Arena.alloc k s size).2 rest).2) := rfl
    rw [hshow]
    dsimp only
    refine ⟨hinv2, by omega, ?_, ?_, ?_, ?_⟩
    · intro r hr
      rcases List.mem_cons.mp hr with heq | hm
      · subst heq
        dsimp only
        exact ⟨hple, by omega⟩
      · have := hranges2 r hm
        exact ⟨by omega, this.2⟩
    · refine List.pairwise_cons.mpr ⟨?_, hpair2⟩
      intro r hm
      have := hranges2 r hm
      dsimp only
      omega
    · intro c hcm
      exact hchmono2 c (hchmono1 c hcm)
    · intro r hr hr0
      rcases List.mem_cons.mp hr with heq | hm
      · subst heq
        dsimp only at hr0
        obtain ⟨c, hcm, hcl, hcr⟩ := hcover1 hr0
        exact ⟨c, hchmono2 c hcm, hcl, hcr⟩
      · exact hcover2 r hm hr0

/-- The sizes of a list of ranges that follow one another and all lie
inside the interval from lo to hi sum to at most the length of that
interval. -/
theorem sum_of_ordered_ranges (rs : List (Nat × Nat)) :
    ∀ lo hi : Nat,
      List.Pairwise (fun a b : Nat × Nat => a.1 + a.2 ≤ b.1) rs →
      (∀ r ∈ rs, lo ≤ r.1 ∧ r.1 + r.2 ≤ hi) →
      (rs.map Prod.snd).sum ≤ hi - lo := by
  induction rs with
  | nil => intro lo hi _ _; simp
  | cons a rest ih =>
    intro lo hi hp hb
    rcases List.pairwise_cons.mp hp with ⟨ha, hrest⟩
    have h1 := hb a (List.mem_cons_self a rest)
    have h2 := ih (a.1 + a.2) hi hrest
      (fun r hr => ⟨ha r hr, (hb r (List.mem_cons_of_mem a hr)).2⟩)
    simp only [List.map_cons, List.sum_cons]
    omega

/-- C2 (amended): when every requested size is at most kChunkSize, the
returned byte ranges are pairwise disjoint, every nonempty returned range
lies inside one of the allocated chunks, and the bytes handed out from
within any single chunk-sized window, in particular from any single chunk,
total at most kChunkSize.  (An allocation larger than kChunkSize instead
receives a fresh chunk of only kChunkSize bytes, and its returned range
spills past that chunk.) -/
theorem arena_alloc_disjoint_bounded (k : Nat) (sizes : List Nat)
    (hs : ∀ sz ∈ sizes, sz ≤ k) :
    List.Pairwise RangeDisjoint (Arena.allocAll k arenaInit sizes).1 ∧
      (∀ r ∈ (Arena.allocAll k arenaInit sizes).1, r.2 ≠ 0 →
        ∃ c ∈ (Arena.allocAll k arenaInit sizes).2.chunks,
          c ≤ r.1 ∧ r.1 + r.2 ≤ c + k) ∧
      (∀ c, chunkBytes k c (Arena.allocAll k arenaInit sizes).1 ≤ k) := by
  have hinv0 : ArenaInv k arenaInit :=
    ⟨Nat.le_refl _, Nat.le_refl _, Or.inl ⟨rfl, rfl, rfl⟩⟩
  obtain ⟨_, _, _, hpair, _, hcover⟩ := allocAll_spec k sizes arenaInit hinv0 hs
  refine ⟨?_, hcover, ?_⟩
  · refine hpair.imp ?_
    intro a b hab x hxa hxb
    rcases hxa with ⟨_, hxa2⟩
    rcases hxb with ⟨hxb1, _⟩
    omega
  · intro c
    have hsub : List.Sublist
        ((Arena.allocAll k arenaInit sizes).1.filter
          fun r => decide (c ≤ r.1 ∧ r.1 + r.2 ≤ c + k))
        (Arena.allocAll k arenaInit sizes).1 := List.filter_sublist _
    have hpf := hpair.sublist hsub
    have hbounds : ∀ r ∈ (Arena.allocAll k arenaInit sizes).1.filter
        (fun r => decide (c ≤ r.1 ∧ r.1 + r.2 ≤ c + k)),
        c ≤ r.1 ∧ r.1 + r.2 ≤ c + k := by
      intro r hr
      have := List.of_mem_filter hr
      simpa using this
    have := sum_of_ordered_ranges _ c (c + k) hpf hbounds
    calc chunkBytes k c (Arena.allocAll k arenaInit sizes).1 ≤ (c + k) - c := this
      _ = k := by omega

/-- Witness for arena_alloc_disjoint_bounded with chunk size 16 and the
request sequence 5, 7, 9 (the third request forces a second chunk). -/
theorem arena_alloc_disjoint_bounded_witness :
    (∀ sz ∈ [5, 7, 9], sz ≤ 16) ∧
      (List.Pairwise RangeDisjoint (Arena.allocAll 16 arenaInit [5, 7, 9]).1 ∧
        (∀ r ∈ (Arena.allocAll 16 arenaInit [5, 7, 9]).1, r.2 ≠ 0 →
          ∃ c ∈ (Arena.allocAll 16 arenaInit [5, 7, 9]).2.chunks,
            c ≤ r.1 ∧ r.1 + r.2 ≤ c + 16) ∧
        (∀ c, chunkBytes 16 c (Arena.allocAll 16 arenaInit [5, 7, 9]).1 ≤ 16)) :=
  ⟨by decide, arena_alloc_disjoint_bounded 16 [5, 7, 9] (by decide)⟩

/-- C2 counterexample: with chunk size 16 and request sizes 17 and 1, the
two returned ranges overlap at address 16 (the oversized first request gets
a fresh chunk of only 16 bytes and spills into the region where the second
chunk is placed), so the returned ranges are not pairwise disjoint. -/
theorem arena_alloc_overlap_cex :
    ¬ List.Pairwise RangeDisjoint (Arena.allocAll 16 arenaInit [17, 1]).1 := by
  intro h
  have hlist : (Arena.allocAll 16 arenaInit [17, 1]).1 = [(0, 17), (16, 1)] := rfl
  rw [hlist] at h
  rcases List.pairwise_cons.mp h with ⟨h1, _⟩
  have hd := h1 (16, 1) (List.mem_singleton.mpr rfl)
  exact hd 16 ⟨by omega, by omega⟩ ⟨by omega, by omega⟩

end Xc
